import Mathlib

/-!
Verification of the batched, cancellable, deduplicating parallel-fetch engine
of the tiktok-downloader repository (src/main.py and
src/tiktok_downloader_gui.py).

The Python code is shallowly embedded: dictionaries become structures,
the filesystem becomes a function from paths to optional file sizes,
the network becomes an oracle giving the outcome of each fetch attempt,
and the concurrent completion order of a batch becomes an explicit
per-batch reordering parameter.  Concurrency is linearized: each task's
download effects are applied at the point its completion is drained.
-/

/-! ## Models of the Python string primitives

Core `String` operations (`splitOn`, `trim`, `toLower`) do not reduce in
the kernel, so the Python string operations used by the source are
modelled directly by structural recursion over the character list. -/

/-- Model of Python `str.split(sep)` for a single separator character:
splits on every occurrence, keeping empty segments. -/
def splitChar (c : Char) : List Char → List (List Char)
  | [] => [[]]
  | x :: xs =>
    let r := splitChar c xs
    if x = c then [] :: r
    else
      match r with
      | [] => [[x]]
      | g :: gs => (x :: g) :: gs

/-- Model of Python `str.strip()`: drop leading and trailing whitespace. -/
def trimStr (s : String) : String :=
  String.mk (((s.data.dropWhile Char.isWhitespace).reverse.dropWhile Char.isWhitespace).reverse)

/-- Model of Python `str.lower()`. -/
def lowerStr (s : String) : String :=
  String.mk (s.data.map Char.toLower)

/-- Model of Python `sub in s` (substring containment test). -/
def strContains (s sub : String) : Bool :=
  decide (sub.data <:+: s.data)

/-- Model of Python `s.split('\n')`. -/
def splitNewline (s : String) : List String :=
  (splitChar '\n' s.data).map String.mk

/-- Model of Python `s.split()` (split on whitespace, dropping empty
segments). -/
def splitWhite (s : String) : List String :=
  ((splitChar ' ' s.data).filter (fun g => g ≠ [])).map String.mk

/-! ## Data model -/

/-- One raw entry of `data['Video']['Videos']['VideoList']`: the fields the
extractor consumes.  `link = none` models an absent `Link` key. -/
structure RawVideo where
  link : Option String
  date : String
deriving DecidableEq

/-- The parsed input record.  `videoList = none` models the absence of the
`Video`/`Videos` nesting (in which case the extractor walks nothing); a
present nesting with a missing `VideoList` key defaults to `[]` in the
source and is modelled by `some []`. -/
structure Schema where
  videoList : Option (List RawVideo)

/-- One extracted task, as built by `get_video_links` (main.py lines 64-69):
the dict with keys `url`, `date`, `type`, `is_personal`. -/
structure Video where
  url : String
  date : String
  type : String
  is_personal : Bool
deriving DecidableEq

/-! ## Record Extractor (`get_video_links`, main.py lines 49-91, identical in
tiktok_downloader_gui.py lines 510-549) -/

/-- The inner loop of `add_video` (main.py lines 58-69): for each segment of
the newline-split link, strip it, skip it when empty or already seen,
otherwise record it together with the entry's own date/type/flag. -/
def addUrls (date vtype : String) (isPersonal : Bool) :
    List String → List Video × List String → List Video × List String
  | [], acc => acc
  | u :: us, (vids, seen) =>
    let u2 := trimStr u
    if u2 = "" ∨ u2 ∈ seen then
      addUrls date vtype isPersonal us (vids, seen)
    else
      addUrls date vtype isPersonal us
        (vids ++ [⟨u2, date, vtype, isPersonal⟩], seen ++ [u2])

/-- `add_video` (main.py lines 54-69).  A falsy `Link` (absent or empty)
is skipped. -/
def addVideo (vtype : String) (isPersonal : Bool) (rv : RawVideo)
    (acc : List Video × List String) : List Video × List String :=
  match rv.link with
  | none => acc
  | some link =>
    if link = "" then acc
    else addUrls rv.date vtype isPersonal (splitNewline link) acc

/-- Python's stable `videos.sort(key=lambda x: x['date'], reverse=True)`
(main.py line 77). -/
def sortByDateDesc (l : List Video) : List Video :=
  l.mergeSort (fun a b => decide (b.date ≤ a.date))

/-- `get_video_links` (main.py lines 49-91): walk
`Video.Videos.VideoList` with `add_video(video, 'posted', True)`, then sort
by date descending.  Logging is pure side output and is not modelled. -/
def get_video_links (data : Schema) : List Video :=
  let st :=
    match data.videoList with
    | none => (([] : List Video), ([] : List String))
    | some vl => vl.foldl (fun acc rv => addVideo "posted" true rv acc) ([], [])
  sortByDateDesc st.1

/-- `personal_count` (main.py line 87). -/
def personalCount (l : List Video) : Nat :=
  (l.filter (fun v => v.is_personal)).length

/-- The `other` count reported by the summary line (main.py line 89):
`len(videos) - personal_count`. -/
def otherCount (l : List Video) : Nat :=
  l.length - personalCount l

/-! ## Fetch Worker (`download_video`, main.py lines 94-154; GUI variant
lines 551-611 adds a stop-event pre-check) -/

/-- The filename prefix (main.py line 106). -/
def prefixFor (v : Video) : String :=
  if v.is_personal then "personal" else "other"

/-- `date_str` (main.py lines 98-99):
`video_info['date'].split()[0] if video_info['date'] else 'unknown_date'`.
`none` models the `IndexError` raised by `[0]` when the date is nonempty
whitespace (caught by the outer handler, which returns `None`). -/
def dateToken (date : String) : Option String :=
  if date = "" then some "unknown_date"
  else (splitWhite date).head?

/-- The image-extension test (main.py lines 109-110):
`any(ext in url.lower() for ext in ['.jpg', '.jpeg', '.png', '.webp'])`.
Note this is substring containment, not a suffix test. -/
def isImage (url : String) : Bool :=
  [".jpg", ".jpeg", ".png", ".webp"].any (fun ext => strContains (lowerStr url) ext)

/-- The chosen extension (main.py line 111). -/
def extensionOf (url : String) : String :=
  if isImage url then ".jpg" else ".mp4"

/-- Static configuration of one downloader instance: the md5-hex-prefix
function `hashlib.md5(url.encode()).hexdigest()[:8]` (a pure function of
the url, kept abstract) and the download directory. -/
structure Env where
  hash : String → String
  dir : String

/-- The destination filename (main.py line 113):
`f"{prefix}_{date_str}_{video_type}_{url_hash}{extension}"`;
`none` when the `date_str` computation raises. -/
def fileNameOf (env : Env) (v : Video) : Option String :=
  (dateToken v.date).map fun d =>
    prefixFor v ++ "_" ++ d ++ "_" ++ v.type ++ "_" ++ env.hash v.url ++ extensionOf v.url

/-- The destination path (main.py line 114): `os.path.join(download_dir, filename)`. -/
def pathOf (env : Env) (v : Video) : Option String :=
  (fileNameOf env v).map fun f => env.dir ++ "/" ++ f

/-- Outcome of one network attempt, as seen by the `try` body of the retry
loop (main.py lines 126-137): `connFail` models a transport error or
non-2xx status (raised before the file is opened); `bodyFail` models a
streaming error after `written` chunk sizes were already written to the
open file; `ok` models a full body of the given chunk sizes. -/
inductive AttemptResult where
  | connFail
  | bodyFail (written : List Nat)
  | ok (chunks : List Nat)
deriving DecidableEq

/-- Whether an attempt outcome is a success. -/
def AttemptResult.isOk : AttemptResult → Bool
  | .ok _ => true
  | _ => false

/-- What `download_video` returns and does: the returned value (`none`
models Python `None`), the filesystem after the call, the number of
network attempts made (`requests.get` calls), and the list of backoff
sleeps performed (`time.sleep(2)`, main.py line 143). -/
structure DownloadOutcome where
  result : Option String
  fs : String → Option Nat
  attempts : Nat
  sleeps : List Nat

/-- `open(filepath, 'wb')` followed by chunked writes: the file at `path`
ends up with exactly the written bytes. -/
def writeFile (fs : String → Option Nat) (path : String) (size : Nat) :
    String → Option Nat :=
  fun p => if p = path then some size else fs p

/-- `max_retries` (main.py line 124). -/
def max_retries : Nat := 3

/-- The retry loop `for attempt in range(max_retries)` (main.py lines
125-148), unrolled from index `attempt` with `fuel` iterations remaining.
A successful attempt writes the full body to `filepath` and returns it; a
failed attempt retries after a fixed 2-unit sleep while `attempt <
max_retries - 1`, and otherwise re-raises, which the outer handler turns
into `None`.  A `bodyFail` attempt leaves the partially written file at
`filepath`. -/
def retryFrom (netU : Nat → AttemptResult) (filepath : String) :
    Nat → Nat → (String → Option Nat) → DownloadOutcome
  | _, 0, fs => ⟨none, fs, 0, []⟩
  | attempt, fuel + 1, fs =>
    match netU attempt with
    | .ok chunks => ⟨some filepath, writeFile fs filepath chunks.sum, 1, []⟩
    | .connFail =>
      if attempt < max_retries - 1 then
        let o := retryFrom netU filepath (attempt + 1) fuel fs
        ⟨o.result, o.fs, o.attempts + 1, 2 :: o.sleeps⟩
      else ⟨none, fs, 1, []⟩
    | .bodyFail written =>
      let fs1 := writeFile fs filepath written.sum
      if attempt < max_retries - 1 then
        let o := retryFrom netU filepath (attempt + 1) fuel fs1
        ⟨o.result, o.fs, o.attempts + 1, 2 :: o.sleeps⟩
      else ⟨none, fs1, 1, []⟩

/-- `download_video` (main.py lines 94-154).  The already-exists check
(lines 117-121) tests only `os.path.exists(filepath)` — any existing
file, of any size, is returned as a success without network access. -/
def downloadVideo (env : Env) (net : String → Nat → AttemptResult)
    (fs : String → Option Nat) (v : Video) : DownloadOutcome :=
  match pathOf env v with
  | none => ⟨none, fs, 0, []⟩
  | some filepath =>
    if (fs filepath).isSome then ⟨some filepath, fs, 0, []⟩
    else retryFrom (net v.url) filepath 0 max_retries fs

/-- The GUI `download_video` (tiktok_downloader_gui.py lines 551-611): it
first returns `None` when the stop event is set (lines 555-556) and is
otherwise identical to the CLI worker. -/
def downloadVideoG (stopNow : Bool) (env : Env) (net : String → Nat → AttemptResult)
    (fs : String → Option Nat) (v : Video) : DownloadOutcome :=
  if stopNow then ⟨none, fs, 0, []⟩ else downloadVideo env net fs v

/-! ## Batch slicing

Both schedulers iterate `for i in range(0, len(videos), batch_size)` and
slice `videos[i:i + batch_size]` (main.py lines 163-164).  The slices are
computed by structural recursion with a fuel argument (the list length)
so the definition evaluates in the kernel; Python's `range` with step 0
raises `ValueError`, modelled as producing no batches. -/

/-- Fueled batch slicing; `fuel` bounds the recursion depth. -/
def chunksFuel : Nat → Nat → List α → List (List α)
  | _, _, [] => []
  | _, 0, _ :: _ => []
  | 0, _ + 1, _ :: _ => []
  | fuel + 1, b + 1, x :: xs =>
    ((x :: xs).take (b + 1)) :: chunksFuel fuel (b + 1) ((x :: xs).drop (b + 1))

/-- The list of batches `videos[i:i + batch_size]` for `i = 0, bs, 2*bs, ...`. -/
def chunks (bs : Nat) (l : List α) : List (List α) :=
  chunksFuel l.length bs l

/-! ## CLI Batch Scheduler (`parallel_download_videos`, main.py lines 156-262) -/

/-- The mutable state visible inside one CLI batch: the filesystem, the
run-level `processed_urls` set, the batch-local `successful_downloads`
and `failed_downloads` lists, and the running count of network attempts
(kept to state the idempotent re-run property). -/
structure CBatch where
  fs : String → Option Nat
  processed : List String
  succ : List String
  failed : List String
  attempts : Nat

/-- Handling of one drained completion (main.py lines 184-218): the
worker's effects happen (the future ran to completion), then a URL
already in `processed_urls` is skipped without accounting; otherwise the
URL is recorded and the result classified — a returned path is verified
to exist with size > 0 (lines 199-207), anything else goes to the failed
list. -/
def cliDrainStep (env : Env) (net : String → Nat → AttemptResult)
    (b : CBatch) (v : Video) : CBatch :=
  let o := downloadVideo env net b.fs v
  let b0 := { b with fs := o.fs, attempts := b.attempts + o.attempts }
  if v.url ∈ b0.processed then b0
  else
    let b1 := { b0 with processed := b0.processed ++ [v.url] }
    match o.result with
    | some path =>
      match b1.fs path with
      | some s =>
        if 0 < s then { b1 with succ := b1.succ ++ [path] }
        else { b1 with failed := b1.failed ++ [v.url] }
      | none => { b1 with failed := b1.failed ++ [v.url] }
    | none => { b1 with failed := b1.failed ++ [v.url] }

/-- Draining one batch's completions in the given (nondeterministic)
completion order. -/
def cliDrain (env : Env) (net : String → Nat → AttemptResult) :
    CBatch → List Video → CBatch
  | b, [] => b
  | b, v :: rest => cliDrain env net (cliDrainStep env net b v) rest

/-- The run-level state of the CLI scheduler: filesystem, `processed_urls`,
`all_successful_downloads`, `all_failed_downloads`, total network
attempts, and the trace of batches processed (in order). -/
structure CState where
  fs : String → Option Nat
  processed : List String
  allSucc : List String
  allFailed : List String
  attempts : Nat
  batchTrace : List (List Video)

/-- The batch loop (main.py lines 163-235).  `confirm k` is the user's
answer to the continuation prompt before batch `k` (asked only for `k >
0`, line 169); a non-affirmative answer breaks out of the loop, returning
the totals accumulated so far.  `sched k` reorders batch `k` into its
completion order (`as_completed` yields completions in a nondeterministic
order).  After a batch drains, its successes and failures are appended to
the run totals (lines 221-222). -/
def cliBatches (env : Env) (net : String → Nat → AttemptResult)
    (sched : Nat → List Video → List Video) (confirm : Nat → Bool) :
    Nat → List (List Video) → CState → CState
  | _, [], st => st
  | bIdx, b :: rest, st =>
    if bIdx ≠ 0 ∧ confirm bIdx = false then st
    else
      let d := cliDrain env net ⟨st.fs, st.processed, [], [], 0⟩ (sched bIdx b)
      cliBatches env net sched confirm (bIdx + 1) rest
        { fs := d.fs
          processed := d.processed
          allSucc := st.allSucc ++ d.succ
          allFailed := st.allFailed ++ d.failed
          attempts := st.attempts + d.attempts
          batchTrace := st.batchTrace ++ [b] }

/-- `parallel_download_videos` (main.py lines 156-262): slice into batches
and run the batch loop; the function's return value is the final
`allSucc` list. -/
def parallel_download_videos (env : Env) (net : String → Nat → AttemptResult)
    (sched : Nat → List Video → List Video) (confirm : Nat → Bool)
    (videos : List Video) (batch_size : Nat) (fs0 : String → Option Nat) : CState :=
  cliBatches env net sched confirm 0 (chunks batch_size videos) ⟨fs0, [], [], [], 0, []⟩

/-! ## GUI Batch Scheduler (`parallel_download_videos`,
tiktok_downloader_gui.py lines 613-785)

The GUI scheduler differs from the CLI one in three ways: it polls a
cancellation signal (at the top of each batch via the `stop_event`
callable, and before handling every drained completion via
`self.stop_event`), it has no confirmation prompt, and its drain loop sits
in a `try` whose `finally` clause (lines 701-741) contains, after the
waiting `shutdown`, a duplicated copy of the completion-handling block —
including a `continue` statement that, when the last drained future's URL
is already in `processed_urls`, continues the *batch* loop, skipping the
`all_successful_downloads.extend(...)` at lines 744-745 and, per Python
semantics, discarding any in-flight `return`.

The cancellation signal is modelled by `stopAt`: the signal is set from
global drain step (tick) `k` onwards.  `tick` advances once per drained
completion. -/

/-- Whether the stop signal is set at tick `t`. -/
def stopSet (stopAt : Option Nat) (t : Nat) : Bool :=
  match stopAt with
  | none => false
  | some k => decide (k ≤ t)

/-- Executor shutdown calls, recorded in order:
`shutdown(wait=False)` (line 658) and `shutdown(wait=True)` (line 702). -/
inductive GEvent where
  | shutdownNoWait
  | shutdownWait
deriving DecidableEq

/-- Run-level state of the GUI scheduler: filesystem, `processed_urls`,
batch-local `successful_downloads`/`failed_downloads`, run totals,
network attempt count, `videos_processed` (the progress-callback
counter), the drain tick, and the executor shutdown events. -/
structure GST where
  fs : String → Option Nat
  processed : List String
  succ : List String
  failed : List String
  allSucc : List String
  allFailed : List String
  attempts : Nat
  procCount : Nat
  tick : Nat
  events : List GEvent

/-- The completion-accounting block (lines 669-700, duplicated at lines
708-741): record the URL, bump `videos_processed`, and classify the
result with the exists-and-nonempty verification. -/
def gAccount (g : GST) (v : Video) (res : Option String) : GST :=
  let g1 := { g with processed := g.processed ++ [v.url], procCount := g.procCount + 1 }
  match res with
  | some path =>
    match g1.fs path with
    | some s =>
      if 0 < s then { g1 with succ := g1.succ ++ [path] }
      else { g1 with failed := g1.failed ++ [v.url] }
    | none => { g1 with failed := g1.failed ++ [v.url] }
  | none => { g1 with failed := g1.failed ++ [v.url] }

/-- The `as_completed` drain loop (lines 653-700).  Returns the state, the
last yielded completion (the loop variable `future` still bound when the
`finally` clause runs; `none` only if the batch never yielded), and
whether the loop was exited by the mid-batch cancellation `return` (lines
654-660, which cancels pending futures and shuts the pool down without
waiting).  Each drained completion applies its worker's effects first
(the future had already run). -/
def gDrain (env : Env) (net : String → Nat → AttemptResult) (stopAt : Option Nat) :
    GST → List Video → Option (Video × Option String) →
    GST × Option (Video × Option String) × Bool
  | g, [], last => (g, last, false)
  | g, v :: rest, _ =>
    let stopNow := stopSet stopAt g.tick
    let o := downloadVideoG stopNow env net g.fs v
    let g0 := { g with fs := o.fs, attempts := g.attempts + o.attempts }
    if stopNow then
      ({ g0 with events := g0.events ++ [.shutdownNoWait] }, some (v, o.result), true)
    else if v.url ∈ g0.processed then
      gDrain env net stopAt { g0 with tick := g0.tick + 1 } rest (some (v, o.result))
    else
      gDrain env net stopAt
        { gAccount g0 v o.result with tick := g0.tick + 1 } rest (some (v, o.result))

/-- The `finally` clause (lines 701-741): first `shutdown(wait=True)`,
then the duplicated completion-handling block applied to the last yielded
future.  Returns `true` when that block executed `continue` (its URL was
already processed), which per Python semantics cancels any in-flight
`return` and moves to the next batch. -/
def finallyDup (g : GST) (last : Video × Option String) : Bool × GST :=
  let g0 := { g with events := g.events ++ [.shutdownWait] }
  if last.1.url ∈ g0.processed then (true, g0)
  else (false, gAccount g0 last.1 last.2)

/-- Result of a GUI run: normal loop exit (returns `allSucc` after the
summary), an early `return` from inside a batch (with the value captured
at the `return` statement), or an unhandled exception (the `NameError`
when the `finally` clause runs without any yielded future). -/
inductive GuiResult where
  | normal (g : GST)
  | returned (g : GST) (value : List String)
  | crashed (g : GST)

/-- Lines 744-745: append the batch lists to the run totals. -/
def extendTotals (g : GST) : GST :=
  { g with allSucc := g.allSucc ++ g.succ, allFailed := g.allFailed ++ g.failed }

/-- The GUI batch loop (lines 631-758): check the stop callable at the top
of each batch (break when set), create fresh batch-local lists, drain the
batch, run the `finally` clause, and either continue (skipping the
extend when the duplicated block hit its `continue`), return early, or
extend the totals and move on. -/
def guiBatches (env : Env) (net : String → Nat → AttemptResult)
    (sched : Nat → List Video → List Video) (stopAt : Option Nat) :
    Nat → List (List Video) → GST → GuiResult
  | _, [], g => .normal g
  | bIdx, b :: rest, g =>
    if stopSet stopAt g.tick then .normal g
    else
      let g1 := { g with succ := [], failed := [] }
      match gDrain env net stopAt g1 (sched bIdx b) none with
      | (g2, none, _) => .crashed { g2 with events := g2.events ++ [.shutdownWait] }
      | (g2, some last, cancelled) =>
        match finallyDup g2 last with
        | (true, g3) => guiBatches env net sched stopAt (bIdx + 1) rest g3
        | (false, g3) =>
          if cancelled then .returned g3 g2.allSucc
          else guiBatches env net sched stopAt (bIdx + 1) rest (extendTotals g3)

/-- The GUI `parallel_download_videos` (lines 613-785). -/
def gui_parallel_download_videos (env : Env) (net : String → Nat → AttemptResult)
    (sched : Nat → List Video → List Video) (stopAt : Option Nat)
    (videos : List Video) (batch_size : Nat) (fs0 : String → Option Nat) : GuiResult :=
  guiBatches env net sched stopAt 0 (chunks batch_size videos)
    ⟨fs0, [], [], [], [], [], 0, 0, 0, []⟩

/-- The list the GUI function returns to its caller (`none` when it raises
instead of returning). -/
def guiReturnValue : GuiResult → Option (List String)
  | .normal g => some g.allSucc
  | .returned _ v => some v
  | .crashed _ => none

/-- The final state of a GUI run. -/
def guiFinal : GuiResult → GST
  | .normal g => g
  | .returned g _ => g
  | .crashed g => g

/-! ## Concrete fixtures used by the evaluation theorems -/

/-- A concrete environment: a constant stand-in for the md5 hash and the
download directory. -/
def sampleEnv : Env := ⟨fun _ => "h", "d"⟩

/-- A concrete task with an empty date. -/
def sampleVideo : Video := ⟨"u1", "", "posted", true⟩

/-- A second concrete task. -/
def sampleVideo2 : Video := ⟨"u2", "", "posted", true⟩

/-- A network oracle on which every attempt succeeds with a 7-byte body. -/
def netAllOk : String → Nat → AttemptResult := fun _ _ => .ok [7]

/-- A network oracle on which every attempt fails before the body. -/
def netAllConnFail : String → Nat → AttemptResult := fun _ _ => .connFail

/-- A network oracle on which every attempt fails after writing 5 bytes. -/
def netAllBodyFail : String → Nat → AttemptResult := fun _ _ => .bodyFail [5]

/-- The identity completion order: completions drain in submission order. -/
def schedId : Nat → List Video → List Video := fun _ l => l

/-- An empty filesystem. -/
def fsEmpty : String → Option Nat := fun _ => none

/-- The destination path of `sampleVideo` under `sampleEnv`. -/
def samplePath : String := "d/personal_unknown_date_posted_h.mp4"

/-- A filesystem holding exactly one file: a zero-byte file at `samplePath`. -/
def fsZeroFile : String → Option Nat := fun p => if p = samplePath then some 0 else none

/-- A network oracle on which the first two attempts fail before the body
and the third fails after writing 5 bytes. -/
def netConnBody : String → Nat → AttemptResult :=
  fun _ i => if i < 2 then .connFail else .bodyFail [5]

/-! ## Claim C2 — batch totals and returned list (code bug in the GUI
scheduler) -/

/-- Claim C2: evaluation at the failing input.  One task, batch size 1, no
cancellation, every attempt succeeding: the drained batch produced a
verified success (the batch-local list holds the path and the file exists
with size 7 > 0, one completion was accounted), yet the GUI scheduler
returns the empty list and its run totals were never extended — the
duplicated completion block in the `finally` clause hits its `continue`
(the last drained URL is always already in `processed_urls`) and skips
the `extend`.  The claim's property — the returned list is the ordered
concatenation of the batches' verified successes — fails on the GUI
implementation. -/
theorem C2_gui_drops_batch_totals :
    guiReturnValue (gui_parallel_download_videos sampleEnv netAllOk schedId none
      [sampleVideo] 1 fsEmpty) = some [] ∧
    (guiFinal (gui_parallel_download_videos sampleEnv netAllOk schedId none
      [sampleVideo] 1 fsEmpty)).succ = [samplePath] ∧
    (guiFinal (gui_parallel_download_videos sampleEnv netAllOk schedId none
      [sampleVideo] 1 fsEmpty)).fs samplePath = some 7 ∧
    (guiFinal (gui_parallel_download_videos sampleEnv netAllOk schedId none
      [sampleVideo] 1 fsEmpty)).procCount = 1 ∧
    (guiFinal (gui_parallel_download_videos sampleEnv netAllOk schedId none
      [sampleVideo] 1 fsEmpty)).allSucc = [] := by
  decide

/-! ## Claim C6 — CLI/GUI scheduler equivalence (code bug in the GUI
scheduler) -/

/-- Claim C6: evaluation at the failing input.  For the same single-task
list, the same batch size, the same per-task fetch outcomes (success), no
cancellation and all confirmations affirmative, the CLI scheduler returns
the one successful path while the GUI scheduler returns the empty list:
the two implementations are not behaviorally equivalent. -/
theorem C6_cli_gui_not_equivalent :
    (parallel_download_videos sampleEnv netAllOk schedId (fun _ => true)
      [sampleVideo] 1 fsEmpty).allSucc = [samplePath] ∧
    guiReturnValue (gui_parallel_download_videos sampleEnv netAllOk schedId none
      [sampleVideo] 1 fsEmpty) = some [] := by
  decide

/-! ## Claim C5 — cancellation mid-batch (code bug in the GUI scheduler) -/

/-- Claim C5: evaluation at the failing input.  Two tasks in one batch with
the stop signal set after the first completion is drained: the mid-batch
cancellation branch runs `shutdown(wait=False)` and returns — but the
`finally` clause then performs a *waiting* `shutdown(wait=True)` and its
duplicated completion block *accounts* the in-flight completion that
triggered the check (`videos_processed` reaches 2 and the second task's
URL is recorded in the batch failure list) instead of discarding it.
Parts (a) and (b) of the claim hold here (no further batch starts and the
returned list `[]` is a subset of anything), but part (c) — shut down
without waiting, discarding in-flight completions — is contradicted. -/
theorem C5_cancellation_waits_and_counts :
    guiReturnValue (gui_parallel_download_videos sampleEnv netAllOk schedId (some 1)
      [sampleVideo, sampleVideo2] 2 fsEmpty) = some [] ∧
    (guiFinal (gui_parallel_download_videos sampleEnv netAllOk schedId (some 1)
      [sampleVideo, sampleVideo2] 2 fsEmpty)).events
      = [GEvent.shutdownNoWait, GEvent.shutdownWait] ∧
    (guiFinal (gui_parallel_download_videos sampleEnv netAllOk schedId (some 1)
      [sampleVideo, sampleVideo2] 2 fsEmpty)).procCount = 2 ∧
    (guiFinal (gui_parallel_download_videos sampleEnv netAllOk schedId (some 1)
      [sampleVideo, sampleVideo2] 2 fsEmpty)).failed = ["u2"] ∧
    (guiFinal (gui_parallel_download_videos sampleEnv netAllOk schedId (some 1)
      [sampleVideo, sampleVideo2] 2 fsEmpty)).succ = [samplePath] := by
  decide

/-! ## Claim C3 — idempotent skip (corrected: the check is existence, not
size > 0) -/

/-- Claim C3: counterexample to the claim as stated.  `fsZeroFile` holds
exactly one file — a zero-byte file at the task's destination path — so
no file of size > 0 exists anywhere; the claim then requires a network
fetch, but the worker performs zero network attempts and returns
`Success(path)`: the skip check (main.py line 117) tests only
`os.path.exists`. -/
theorem C3_counterexample_zero_size_skip :
    fsZeroFile samplePath = some 0 ∧
    (downloadVideo sampleEnv netAllConnFail fsZeroFile sampleVideo).attempts = 0 ∧
    (downloadVideo sampleEnv netAllConnFail fsZeroFile sampleVideo).result
      = some samplePath := by
  decide

/-- A worker that finds every one of its destination paths already present
performs no network attempts and leaves everything unchanged. -/
theorem downloadVideo_no_net (env : Env) (net : String → Nat → AttemptResult)
    (fs : String → Option Nat) (v : Video)
    (h : ∀ p, pathOf env v = some p → (fs p).isSome) :
    downloadVideo env net fs v = ⟨pathOf env v, fs, 0, []⟩ := by
  cases hp : pathOf env v with
  | none => simp [downloadVideo, hp]
  | some p => simp [downloadVideo, hp, h p hp]

/-- One CLI drain step makes no network attempt and leaves the filesystem
unchanged when the task's destination path is already present. -/
theorem cliDrainStep_no_net (env : Env) (net : String → Nat → AttemptResult)
    (b : CBatch) (v : Video)
    (h : ∀ p, pathOf env v = some p → (b.fs p).isSome) :
    (cliDrainStep env net b v).fs = b.fs ∧
    (cliDrainStep env net b v).attempts = b.attempts := by
  unfold cliDrainStep
  rw [downloadVideo_no_net env net b.fs v h]
  dsimp only
  repeat' split
  all_goals exact ⟨rfl, rfl⟩

/-- Draining a batch whose tasks' destination paths are all present makes
no network attempt and leaves the filesystem unchanged. -/
theorem cliDrain_no_net (env : Env) (net : String → Nat → AttemptResult) :
    ∀ (L : List Video) (b : CBatch),
      (∀ w ∈ L, ∀ p, pathOf env w = some p → (b.fs p).isSome) →
      (cliDrain env net b L).fs = b.fs ∧
      (cliDrain env net b L).attempts = b.attempts := by
  intro L
  induction L with
  | nil => intro b _; exact ⟨rfl, rfl⟩
  | cons v rest ih =>
    intro b h
    have hv : ∀ p, pathOf env v = some p → (b.fs p).isSome :=
      fun p hp => h v (List.mem_cons_self v rest) p hp
    have hstep := cliDrainStep_no_net env net b v hv
    have htail : ∀ w ∈ rest, ∀ p, pathOf env w = some p →
        ((cliDrainStep env net b v).fs p).isSome := by
      intro w hw p hp
      rw [hstep.1]
      exact h w (List.mem_cons_of_mem v hw) p hp
    have := ih (cliDrainStep env net b v) htail
    exact ⟨this.1.trans hstep.1, this.2.trans hstep.2⟩

/-- Elements of a batch slice are elements of the sliced list. -/
theorem chunksFuel_sub {α : Type} :
    ∀ (fuel bs : Nat) (l : List α) (c : List α),
      c ∈ chunksFuel fuel bs l → ∀ x ∈ c, x ∈ l := by
  intro fuel
  induction fuel with
  | zero =>
    intro bs l c hc
    cases l with
    | nil => simp [chunksFuel] at hc
    | cons y ys => cases bs <;> simp [chunksFuel] at hc
  | succ f ih =>
    intro bs l c hc
    cases l with
    | nil => simp [chunksFuel] at hc
    | cons y ys =>
      cases bs with
      | zero => simp [chunksFuel] at hc
      | succ b =>
        simp only [chunksFuel, List.mem_cons] at hc
        rcases hc with rfl | hc
        · exact fun x hx => List.take_subset (b + 1) (y :: ys) hx
        · intro x hx
          exact List.drop_subset (b + 1) (y :: ys) (ih (b + 1) _ c hc x hx)

/-- Elements of a batch are elements of the task list. -/
theorem chunks_sub {α : Type} (bs : Nat) (l : List α) (c : List α)
    (hc : c ∈ chunks bs l) : ∀ x ∈ c, x ∈ l :=
  chunksFuel_sub l.length bs l c hc

/-- The batch loop makes no network attempt when every task's destination
path is already present in the starting filesystem. -/
theorem cliBatches_no_net (env : Env) (net : String → Nat → AttemptResult)
    (sched : Nat → List Video → List Video) (confirm : Nat → Bool)
    (hsched : ∀ b l, ∀ x ∈ sched b l, x ∈ l) :
    ∀ (bl : List (List Video)) (bIdx : Nat) (st : CState),
      (∀ c ∈ bl, ∀ w ∈ c, ∀ p, pathOf env w = some p → (st.fs p).isSome) →
      (cliBatches env net sched confirm bIdx bl st).attempts = st.attempts := by
  intro bl
  induction bl with
  | nil => intro bIdx st _; rfl
  | cons c rest ih =>
    intro bIdx st h
    unfold cliBatches
    split
    · rfl
    · have hbatch : ∀ w ∈ sched bIdx c, ∀ p, pathOf env w = some p →
          ((⟨st.fs, st.processed, [], [], 0⟩ : CBatch).fs p).isSome := by
        intro w hw p hp
        exact h c (List.mem_cons_self c rest) w (hsched bIdx c w hw) p hp
      have hd := cliDrain_no_net env net (sched bIdx c) ⟨st.fs, st.processed, [], [], 0⟩ hbatch
      have hrest : ∀ c2 ∈ rest, ∀ w ∈ c2, ∀ p, pathOf env w = some p →
          (((cliDrain env net ⟨st.fs, st.processed, [], [], 0⟩ (sched bIdx c)).fs) p).isSome := by
        intro c2 hc2 w hw p hp
        rw [hd.1]
        exact h c2 (List.mem_cons_of_mem c hc2) w hw p hp
      rw [ih (bIdx + 1) _ hrest]
      simp [hd.2]

/-- Claim C3 (amended): the Fetch Worker performs a network fetch if and
only if *no file at all* exists at the task's destination path — an
existing file of any size (zero included) is returned as `Success(path)`
with no network access; consequently re-running the fetch phase over a
task list whose destination paths are all already present performs zero
network requests. -/
theorem C3_skip_on_existence :
    (∀ (env : Env) (net : String → Nat → AttemptResult) (fs : String → Option Nat)
       (v : Video) (p : String), pathOf env v = some p →
       (((fs p).isSome → downloadVideo env net fs v = ⟨some p, fs, 0, []⟩) ∧
        (fs p = none → 1 ≤ (downloadVideo env net fs v).attempts))) ∧
    (∀ (env : Env) (net : String → Nat → AttemptResult)
       (sched : Nat → List Video → List Video) (confirm : Nat → Bool)
       (videos : List Video) (batch_size : Nat) (fs0 : String → Option Nat),
       (∀ b l, ∀ x ∈ sched b l, x ∈ l) →
       (∀ v ∈ videos, ∀ p, pathOf env v = some p → (fs0 p).isSome) →
       (parallel_download_videos env net sched confirm videos batch_size fs0).attempts = 0) := by
  constructor
  · intro env net fs v p hp
    constructor
    · intro hs
      rw [downloadVideo_no_net env net fs v (fun q hq => by rw [hp] at hq; cases hq; exact hs), hp]
    · intro hn
      have : 1 ≤ (retryFrom (net v.url) p 0 max_retries fs).attempts := by
        simp [max_retries, retryFrom]
        cases h : net v.url 0 <;> simp
      simpa [downloadVideo, hp, hn] using this
  · intro env net sched confirm videos batch_size fs0 hsched hall
    unfold parallel_download_videos
    exact cliBatches_no_net env net sched confirm hsched (chunks batch_size videos) 0 _
      (fun c hc w hw p hp => hall w (chunks_sub batch_size videos c hc w hw) p hp)

/-- Claim C3 (amended) witness: both parts applied at concrete inputs — a
zero-byte file is skipped with no attempts, and a run over a fully
populated destination directory makes zero network attempts. -/
theorem C3_skip_on_existence_witness :
    downloadVideo sampleEnv netAllConnFail fsZeroFile sampleVideo
      = ⟨some samplePath, fsZeroFile, 0, []⟩ ∧
    (parallel_download_videos sampleEnv netAllConnFail schedId (fun _ => true)
      [sampleVideo] 1 fsZeroFile).attempts = 0 := by
  constructor
  · exact ((C3_skip_on_existence.1 sampleEnv netAllConnFail fsZeroFile sampleVideo
      samplePath (by decide)).1 (by decide))
  · exact C3_skip_on_existence.2 sampleEnv netAllConnFail schedId (fun _ => true)
      [sampleVideo] 1 fsZeroFile (fun _ _ x hx => hx)
      (by
        intro v hv p hp
        have hv2 : v = sampleVideo := by
          cases hv with
          | head => rfl
          | tail _ h => cases h
        subst hv2
        have : pathOf sampleEnv sampleVideo = some samplePath := by decide
        rw [this] at hp
        cases hp
        decide)

/-! ## Claim C7 — extension choice (corrected: substring containment, not
suffix) -/

/-- Claim C7: counterexample to the claim as stated.  The URL `a.jpgx` ends
in none of `.jpg`, `.jpeg`, `.png`, `.webp` (no recognized image suffix),
so the claim requires the video extension `.mp4`; but the source tests
`ext in url.lower()` — substring containment — which the embedded
`.jpg` satisfies, so the task materializes with the image extension. -/
theorem C7_counterexample_substring_hit :
    extensionOf "a.jpgx" = ".jpg" ∧
    extensionOf "a.jpgx" ≠ ".mp4" ∧
    fileNameOf sampleEnv ⟨"a.jpgx", "", "posted", true⟩
      = some "personal_unknown_date_posted_h.jpg" ∧
    ([".jpg", ".jpeg", ".png", ".webp"].all
      (fun e => !(decide (e.data <:+ ("a.jpgx" : String).data)))) = true := by
  decide

/-- Claim C7 (amended): the destination extension is chosen by *substring
containment* of the lowercased URL against `.jpg`/`.jpeg`/`.png`/`.webp`:
a URL ending in one of them (a suffix is a substring) materializes with
the image extension `.jpg`, and a URL *containing none of them anywhere*
materializes with the video extension `.mp4`.  The derivation is a pure
function of the task, so the same task always yields the same path. -/
theorem C7_extension_by_containment (url : String) :
    ((∃ e ∈ [".jpg", ".jpeg", ".png", ".webp"], e.data <:+ (lowerStr url).data) →
      extensionOf url = ".jpg") ∧
    ((∀ e ∈ [".jpg", ".jpeg", ".png", ".webp"], ¬ (e.data <:+: (lowerStr url).data)) →
      extensionOf url = ".mp4") := by
  constructor
  · rintro ⟨e, he, hsuf⟩
    have himg : isImage url = true := by
      unfold isImage
      rw [List.any_eq_true]
      exact ⟨e, he, by unfold strContains; exact decide_eq_true hsuf.isInfix⟩
    simp [extensionOf, himg]
  · intro h
    have himg : isImage url = false := by
      unfold isImage
      rw [List.any_eq_false]
      intro e he
      unfold strContains
      intro hx
      exact h e he (of_decide_eq_true hx)
    simp [extensionOf, himg]

/-- Claim C7 (amended) witness: a URL ending in `.png` gets the image
extension and a URL containing no image-extension string gets `.mp4`. -/
theorem C7_extension_by_containment_witness :
    extensionOf "b.png" = ".jpg" ∧ extensionOf "u" = ".mp4" :=
  ⟨(C7_extension_by_containment "b.png").1 ⟨".png", by decide, by decide⟩,
   (C7_extension_by_containment "u").2 (by decide)⟩

/-! ## Claim C8 — partial writes (corrected: failed attempts do leave a
truncated nonzero-size file at the final path) -/

/-- Claim C8: counterexample to the claim as stated.  Every attempt fails
partway through the body after writing 5 bytes directly to the final
destination path; after the worker gives up, a truncated nonzero-size
file (5 bytes) sits at the final path, and a subsequent run's
idempotent-skip check treats it as already downloaded (zero attempts,
`Success(path)`). -/
theorem C8_counterexample_partial_file :
    (downloadVideo sampleEnv netAllBodyFail fsEmpty sampleVideo).result = none ∧
    (downloadVideo sampleEnv netAllBodyFail fsEmpty sampleVideo).fs samplePath = some 5 ∧
    (downloadVideo sampleEnv netAllBodyFail
      ((downloadVideo sampleEnv netAllBodyFail fsEmpty sampleVideo).fs) sampleVideo).result
      = some samplePath ∧
    (downloadVideo sampleEnv netAllBodyFail
      ((downloadVideo sampleEnv netAllBodyFail fsEmpty sampleVideo).fs) sampleVideo).attempts
      = 0 := by
  decide

/-- Claim C8 (amended): the worker streams the body directly to the final
destination path and performs no cleanup or rename on failure, so an
attempt that fails partway through the body leaves the partial file (of
size the sum of the chunks written) at the final path; a later run's
existence-based skip check then treats it as already downloaded. -/
theorem C8_partial_write_left (env : Env) (net : String → Nat → AttemptResult)
    (fs : String → Option Nat) (v : Video) (p : String) (w : List Nat)
    (hp : pathOf env v = some p) (hf : fs p = none)
    (h0 : net v.url 0 = .connFail) (h1 : net v.url 1 = .connFail)
    (h2 : net v.url 2 = .bodyFail w) :
    (downloadVideo env net fs v).result = none ∧
    (downloadVideo env net fs v).fs p = some w.sum ∧
    (downloadVideo env net ((downloadVideo env net fs v).fs) v).result = some p ∧
    (downloadVideo env net ((downloadVideo env net fs v).fs) v).attempts = 0 := by
  have hfirst : downloadVideo env net fs v
      = ⟨none, writeFile fs p w.sum, 3, [2, 2]⟩ := by
    simp [downloadVideo, hp, hf, max_retries, retryFrom, h0, h1, h2]
  rw [hfirst]
  refine ⟨rfl, by simp [writeFile], ?_, ?_⟩ <;>
    simp [downloadVideo, hp, writeFile]

/-- Claim C8 (amended) witness: the amended theorem at the concrete
5-byte-partial-failure input. -/
theorem C8_partial_write_left_witness :
    (downloadVideo sampleEnv netConnBody fsEmpty sampleVideo).result = none ∧
    (downloadVideo sampleEnv netConnBody fsEmpty sampleVideo).fs samplePath
      = some ([5] : List Nat).sum ∧
    (downloadVideo sampleEnv netConnBody
      ((downloadVideo sampleEnv netConnBody fsEmpty sampleVideo).fs) sampleVideo).result
      = some samplePath ∧
    (downloadVideo sampleEnv netConnBody
      ((downloadVideo sampleEnv netConnBody fsEmpty sampleVideo).fs) sampleVideo).attempts
      = 0 :=
  C8_partial_write_left sampleEnv netConnBody fsEmpty sampleVideo samplePath [5]
    (by decide) (by decide) (by decide) (by decide) (by decide)

/-! ## Claim C9 — positional batch partition -/

/-- Slicing the empty list yields no batches. -/
theorem chunksFuel_nil {α : Type} (fuel bs : Nat) :
    chunksFuel fuel bs ([] : List α) = [] := by
  cases fuel <;> cases bs <;> rfl

/-- With enough fuel and a positive batch size, the batch slices
concatenate back to the original list. -/
theorem chunksFuel_join {α : Type} :
    ∀ (fuel bs : Nat) (l : List α), l.length ≤ fuel → 1 ≤ bs →
      (chunksFuel fuel bs l).flatten = l := by
  intro fuel
  induction fuel with
  | zero =>
    intro bs l hl _
    cases l with
    | nil => simp [chunksFuel]
    | cons x xs => simp at hl
  | succ f ih =>
    intro bs l hl hbs
    cases l with
    | nil => simp [chunksFuel]
    | cons x xs =>
      cases bs with
      | zero => omega
      | succ b =>
        have hdrop : ((x :: xs).drop (b + 1)).length ≤ f := by
          simp only [List.length_drop]
          simp at hl ⊢
          omega
        simp only [chunksFuel, List.flatten_cons]
        rw [ih (b + 1) _ hdrop (Nat.le_add_left 1 b)]
        exact List.take_append_drop (b + 1) (x :: xs)

/-- The batches concatenate back to the task list (positional partition,
order preserved). -/
theorem chunks_join {α : Type} (bs : Nat) (l : List α) (hbs : 1 ≤ bs) :
    (chunks bs l).flatten = l :=
  chunksFuel_join l.length bs l (Nat.le_refl _) hbs

/-- Every batch slice is nonempty and no longer than the batch size. -/
theorem chunksFuel_shape {α : Type} :
    ∀ (fuel bs : Nat) (l : List α) (c : List α),
      c ∈ chunksFuel fuel bs l → c ≠ [] ∧ c.length ≤ bs := by
  intro fuel
  induction fuel with
  | zero =>
    intro bs l c hc
    cases l with
    | nil => simp [chunksFuel] at hc
    | cons x xs => cases bs <;> simp [chunksFuel] at hc
  | succ f ih =>
    intro bs l c hc
    cases l with
    | nil => simp [chunksFuel] at hc
    | cons x xs =>
      cases bs with
      | zero => simp [chunksFuel] at hc
      | succ b =>
        simp only [chunksFuel, List.mem_cons] at hc
        rcases hc with rfl | hc
        · refine ⟨by simp, ?_⟩
          simp [List.length_take]
        · exact ih (b + 1) _ c hc

/-- Every batch slice except possibly the last has length exactly the
batch size. -/
theorem chunksFuel_dropLast {α : Type} :
    ∀ (fuel b : Nat) (l : List α) (c : List α),
      c ∈ (chunksFuel fuel (b + 1) l).dropLast → c.length = b + 1 := by
  intro fuel
  induction fuel with
  | zero =>
    intro b l c hc
    cases l with
    | nil => simp [chunksFuel] at hc
    | cons x xs => simp [chunksFuel] at hc
  | succ f ih =>
    intro b l c hc
    cases l with
    | nil => simp [chunksFuel] at hc
    | cons x xs =>
      simp only [chunksFuel] at hc
      cases hrest : chunksFuel f (b + 1) ((x :: xs).drop (b + 1)) with
      | nil => rw [hrest] at hc; simp at hc
      | cons r1 rs =>
        rw [hrest] at hc
        rw [List.dropLast_cons₂] at hc
        have hd : (x :: xs).drop (b + 1) ≠ [] := by
          intro h0
          rw [h0, chunksFuel_nil] at hrest
          cases hrest
        have hlen : b + 1 < (x :: xs).length := by
          by_contra hle
          exact hd (List.drop_eq_nil_of_le (by omega))
        rcases List.mem_cons.mp hc with rfl | hc2
        · simp only [List.length_take, List.length_cons] at hlen ⊢
          omega
        · exact ih b _ c (by rw [hrest]; exact hc2)

/-- With every confirmation affirmative, the CLI batch loop processes
exactly the given batches, in order. -/
theorem cliBatches_trace (env : Env) (net : String → Nat → AttemptResult)
    (sched : Nat → List Video → List Video) (confirm : Nat → Bool)
    (hconf : ∀ k, confirm k = true) :
    ∀ (bl : List (List Video)) (bIdx : Nat) (st : CState),
      (cliBatches env net sched confirm bIdx bl st).batchTrace
        = st.batchTrace ++ bl := by
  intro bl
  induction bl with
  | nil => intro bIdx st; simp [cliBatches]
  | cons c rest ih =>
    intro bIdx st
    unfold cliBatches
    rw [if_neg (by simp [hconf bIdx])]
    rw [ih]
    simp

/-- Claim C9: for every task list and every batch size ≥ 1, the scheduler
partitions the list into contiguous positional slices of length
`batch_size` (the last possibly shorter) preserving order, and the batch
loop processes exactly those slices sequentially in order; in particular
3 tasks A, B, C with batch size 2 give batches `[A, B]` then `[C]`. -/
theorem C9_positional_batches :
    (∀ (bs : Nat) (l : List Video), 1 ≤ bs →
       ((chunks bs l).flatten = l ∧
        (∀ c ∈ chunks bs l, c ≠ [] ∧ c.length ≤ bs) ∧
        (∀ c ∈ (chunks bs l).dropLast, c.length = bs))) ∧
    (∀ (env : Env) (net : String → Nat → AttemptResult)
       (sched : Nat → List Video → List Video) (confirm : Nat → Bool)
       (videos : List Video) (batch_size : Nat) (fs0 : String → Option Nat),
       (∀ k, confirm k = true) →
       (parallel_download_videos env net sched confirm videos batch_size fs0).batchTrace
         = chunks batch_size videos) ∧
    (∀ A B C : Video, chunks 2 [A, B, C] = [[A, B], [C]]) := by
  refine ⟨?_, ?_, ?_⟩
  · intro bs l hbs
    refine ⟨chunks_join bs l hbs, fun c hc => chunksFuel_shape l.length bs l c hc, ?_⟩
    intro c hc
    cases bs with
    | zero => omega
    | succ b => exact chunksFuel_dropLast l.length b l c hc
  · intro env net sched confirm videos batch_size fs0 hconf
    unfold parallel_download_videos
    rw [cliBatches_trace env net sched confirm hconf]
    simp
  · intro A B C
    rfl

/-- Claim C9 witness: the partition facts at batch size 2 over a concrete
3-task list, and one concrete scheduler run's batch trace. -/
theorem C9_positional_batches_witness :
    ((chunks 2 [sampleVideo, sampleVideo2, sampleVideo]).flatten
        = [sampleVideo, sampleVideo2, sampleVideo] ∧
      (∀ c ∈ chunks 2 [sampleVideo, sampleVideo2, sampleVideo], c ≠ [] ∧ c.length ≤ 2) ∧
      (∀ c ∈ (chunks 2 [sampleVideo, sampleVideo2, sampleVideo]).dropLast, c.length = 2)) ∧
    (parallel_download_videos sampleEnv netAllOk schedId (fun _ => true)
        [sampleVideo, sampleVideo2, sampleVideo] 2 fsEmpty).batchTrace
      = chunks 2 [sampleVideo, sampleVideo2, sampleVideo] ∧
    chunks 2 [sampleVideo, sampleVideo2, sampleVideo]
      = [[sampleVideo, sampleVideo2], [sampleVideo]] :=
  ⟨C9_positional_batches.1 2 [sampleVideo, sampleVideo2, sampleVideo] (by decide),
   C9_positional_batches.2.1 sampleEnv netAllOk schedId (fun _ => true)
     [sampleVideo, sampleVideo2, sampleVideo] 2 fsEmpty (fun _ => rfl),
   C9_positional_batches.2.2 sampleVideo sampleVideo2 sampleVideo⟩

/-! ## Claims C1 and C10 — extractor invariants -/

/-- The `add_video` URL loop maintains the extractor invariant: the
accumulated tasks' URLs are exactly the seen-set, in order, and the
seen-set has no duplicates. -/
theorem addUrls_inv (date vtype : String) (isP : Bool) :
    ∀ (us : List String) (vids : List Video) (seen : List String),
      vids.map Video.url = seen → seen.Nodup →
      (addUrls date vtype isP us (vids, seen)).1.map Video.url
          = (addUrls date vtype isP us (vids, seen)).2 ∧
        (addUrls date vtype isP us (vids, seen)).2.Nodup := by
  intro us
  induction us with
  | nil => intro vids seen h1 h2; exact ⟨h1, h2⟩
  | cons u rest ih =>
    intro vids seen h1 h2
    simp only [addUrls]
    split
    · exact ih vids seen h1 h2
    · rename_i hcond
      refine ih (vids ++ [⟨trimStr u, date, vtype, isP⟩]) (seen ++ [trimStr u]) ?_ ?_
      · simp [h1]
      · rw [List.nodup_append]
        refine ⟨h2, List.nodup_singleton _, ?_⟩
        intro a ha hb
        rw [List.mem_singleton] at hb
        subst hb
        push_neg at hcond
        exact hcond.2 ha

/-- `add_video` maintains the extractor invariant. -/
theorem addVideo_inv (vtype : String) (isP : Bool) (rv : RawVideo) :
    ∀ (vids : List Video) (seen : List String),
      vids.map Video.url = seen → seen.Nodup →
      (addVideo vtype isP rv (vids, seen)).1.map Video.url
          = (addVideo vtype isP rv (vids, seen)).2 ∧
        (addVideo vtype isP rv (vids, seen)).2.Nodup := by
  intro vids seen h1 h2
  unfold addVideo
  cases rv.link with
  | none => exact ⟨h1, h2⟩
  | some link =>
    by_cases hl : link = ""
    · simp only [hl, if_pos rfl]
      exact ⟨h1, h2⟩
    · simp only [if_neg hl]
      exact addUrls_inv rv.date vtype isP (splitNewline link) vids seen h1 h2

/-- The `VideoList` fold maintains the extractor invariant. -/
theorem foldl_addVideo_inv :
    ∀ (vl : List RawVideo) (vids : List Video) (seen : List String),
      vids.map Video.url = seen → seen.Nodup →
      ((vl.foldl (fun acc rv => addVideo "posted" true rv acc) (vids, seen)).1.map Video.url
          = (vl.foldl (fun acc rv => addVideo "posted" true rv acc) (vids, seen)).2 ∧
        (vl.foldl (fun acc rv => addVideo "posted" true rv acc) (vids, seen)).2.Nodup) := by
  intro vl
  induction vl with
  | nil => intro vids seen h1 h2; exact ⟨h1, h2⟩
  | cons rv rest ih =>
    intro vids seen h1 h2
    have h := addVideo_inv "posted" true rv vids seen h1 h2
    simpa using ih (addVideo "posted" true rv (vids, seen)).1
      (addVideo "posted" true rv (vids, seen)).2 h.1 h.2

/-- Claim C1: for every parsed input record, the task list produced by
`get_video_links` contains no two entries with equal `url` — URL
uniqueness is enforced at extraction itself by the run-local seen-set
(first occurrence wins), independently of any later scheduler dedup. -/
theorem C1_extracted_urls_nodup (data : Schema) :
    ((get_video_links data).map Video.url).Nodup := by
  unfold get_video_links
  cases hvl : data.videoList with
  | none =>
    simp [sortByDateDesc]
  | some vl =>
    dsimp only
    have hinv := foldl_addVideo_inv vl [] [] rfl List.nodup_nil
    set st := vl.foldl (fun acc rv => addVideo "posted" true rv acc) ([], []) with hst
    have hperm : (sortByDateDesc st.1).Perm st.1 :=
      List.mergeSort_perm st.1 _
    have hnd : (st.1.map Video.url).Nodup := hinv.1 ▸ hinv.2
    exact hnd.perm (hperm.map Video.url).symm

/-- URL-loop membership: any task accumulated by the `add_video` URL loop
was already present or carries the loop's type/flag arguments. -/
theorem addUrls_mem (date vtype : String) (isP : Bool) :
    ∀ (us : List String) (vids : List Video) (seen : List String) (v : Video),
      v ∈ (addUrls date vtype isP us (vids, seen)).1 →
      v ∈ vids ∨ (v.type = vtype ∧ v.is_personal = isP) := by
  intro us
  induction us with
  | nil => intro vids seen v hv; exact Or.inl hv
  | cons u rest ih =>
    intro vids seen v hv
    simp only [addUrls] at hv
    split at hv
    · exact ih vids seen v hv
    · rcases ih _ _ v hv with hin | hnew
      · rcases List.mem_append.mp hin with h | h
        · exact Or.inl h
        · simp only [List.mem_singleton] at h
          subst h
          exact Or.inr ⟨rfl, rfl⟩
      · exact Or.inr hnew

/-- `add_video` membership. -/
theorem addVideo_mem (vtype : String) (isP : Bool) (rv : RawVideo) :
    ∀ (vids : List Video) (seen : List String) (v : Video),
      v ∈ (addVideo vtype isP rv (vids, seen)).1 →
      v ∈ vids ∨ (v.type = vtype ∧ v.is_personal = isP) := by
  intro vids seen v hv
  unfold addVideo at hv
  cases h : rv.link with
  | none => rw [h] at hv; exact Or.inl hv
  | some link =>
    rw [h] at hv
    dsimp only at hv
    by_cases hl : link = ""
    · rw [if_pos hl] at hv
      exact Or.inl hv
    · rw [if_neg hl] at hv
      exact addUrls_mem rv.date vtype isP (splitNewline link) vids seen v hv

/-- Fold membership: any task accumulated by the `VideoList` fold was
already present or has type `posted` and the personal flag. -/
theorem foldl_addVideo_mem :
    ∀ (vl : List RawVideo) (vids : List Video) (seen : List String) (v : Video),
      v ∈ (vl.foldl (fun acc rv => addVideo "posted" true rv acc) (vids, seen)).1 →
      v ∈ vids ∨ (v.type = "posted" ∧ v.is_personal = true) := by
  intro vl
  induction vl with
  | nil => intro vids seen v hv; exact Or.inl hv
  | cons rv rest ih =>
    intro vids seen v hv
    simp only [List.foldl_cons] at hv
    have : v ∈ (addVideo "posted" true rv (vids, seen)).1
        ∨ (v.type = "posted" ∧ v.is_personal = true) := by
      have := ih (addVideo "posted" true rv (vids, seen)).1
        (addVideo "posted" true rv (vids, seen)).2 v (by simpa using hv)
      exact this
    rcases this with h | h
    · exact addVideo_mem "posted" true rv vids seen v h
    · exact Or.inr h

/-- Claim C10: every task emitted by the extractor has `is_personal =
True` and `type = 'posted'` (only the `Video.Videos.VideoList` path is
walked with those arguments), so the summary's `other` count is always
zero and every destination filename uses the `personal` prefix — the
`other` prefix branch is unreachable from the extractor's output. -/
theorem C10_extractor_all_personal (data : Schema) :
    (∀ v ∈ get_video_links data, v.is_personal = true ∧ v.type = "posted") ∧
    otherCount (get_video_links data) = 0 ∧
    (∀ v ∈ get_video_links data, prefixFor v = "personal") := by
  have hmem : ∀ v ∈ get_video_links data, v.type = "posted" ∧ v.is_personal = true := by
    intro v hv
    unfold get_video_links at hv
    cases hvl : data.videoList with
    | none =>
      rw [hvl] at hv
      simp [sortByDateDesc] at hv
    | some vl =>
      rw [hvl] at hv
      dsimp only at hv
      have hperm : (sortByDateDesc
          (vl.foldl (fun acc rv => addVideo "posted" true rv acc) ([], [])).1).Perm
          (vl.foldl (fun acc rv => addVideo "posted" true rv acc) ([], [])).1 :=
        List.mergeSort_perm _ _
      have hv2 := hperm.mem_iff.mp hv
      rcases foldl_addVideo_mem vl [] [] v hv2 with h | h
      · cases h
      · exact h
  refine ⟨fun v hv => ⟨(hmem v hv).2, (hmem v hv).1⟩, ?_, fun v hv => ?_⟩
  · unfold otherCount personalCount
    have : (get_video_links data).filter (fun v => v.is_personal) = get_video_links data :=
      List.filter_eq_self.mpr (fun v hv => (hmem v hv).2)
    rw [this, Nat.sub_self]
  · unfold prefixFor
    rw [if_pos (hmem v hv).2]

/-! ## Claim C4 — bounded retry, fixed backoff, failure recorded once -/

/-- The retry loop writes only to its own destination path. -/
theorem retryFrom_fs_other (netU : Nat → AttemptResult) (path q : String) (hq : q ≠ path) :
    ∀ (fuel attempt : Nat) (fs : String → Option Nat),
      (retryFrom netU path attempt fuel fs).fs q = fs q := by
  intro fuel
  induction fuel with
  | zero => intro attempt fs; rfl
  | succ f ih =>
    intro attempt fs
    unfold retryFrom
    cases netU attempt with
    | ok chunks => simp [writeFile, hq]
    | connFail =>
      dsimp only
      split
      · exact ih (attempt + 1) fs
      · rfl
    | bodyFail written =>
      dsimp only
      split
      · rw [ih (attempt + 1) _]
        simp [writeFile, hq]
      · simp [writeFile, hq]

/-- Behavior of the retry loop from position `attempt` with `fuel`
iterations left of the `max_retries`-iteration loop: at least one and at
most `fuel` attempts are made, every backoff sleep is the fixed 2 units
(one fewer sleep than attempts), and if every attempt fails the loop
exhausts its `fuel` attempts and reports failure. -/
theorem retryFrom_spec (netU : Nat → AttemptResult) (path : String) :
    ∀ (fuel attempt : Nat) (fs : String → Option Nat),
      attempt + fuel = max_retries →
      ((1 ≤ fuel → 1 ≤ (retryFrom netU path attempt fuel fs).attempts) ∧
       (retryFrom netU path attempt fuel fs).attempts ≤ fuel ∧
       (retryFrom netU path attempt fuel fs).sleeps
         = List.replicate ((retryFrom netU path attempt fuel fs).attempts - 1) 2 ∧
       ((∀ i, (netU i).isOk = false) →
         (retryFrom netU path attempt fuel fs).result = none ∧
         (retryFrom netU path attempt fuel fs).attempts = fuel)) := by
  intro fuel
  induction fuel with
  | zero =>
    intro attempt fs _
    exact ⟨by omega, Nat.le_refl 0, by simp [retryFrom], fun _ => ⟨rfl, rfl⟩⟩
  | succ f ih =>
    intro attempt fs hinv
    unfold retryFrom
    cases hnet : netU attempt with
    | ok chunks =>
      dsimp only
      refine ⟨fun _ => Nat.le_refl 1, by omega, by simp, fun hfail => ?_⟩
      have := hfail attempt
      rw [hnet] at this
      cases this
    | connFail =>
      dsimp only
      split
      · rename_i hlt
        have hf : 1 ≤ f := by
          unfold max_retries at hinv hlt
          omega
        have hih := ih (attempt + 1) fs (by omega)
        have hle := hih.2.1
        have h1 := hih.1 hf
        dsimp only
        refine ⟨fun _ => by omega, by omega, ?_, fun hfail => ?_⟩
        · rw [hih.2.2.1]
          cases hn : (retryFrom netU path (attempt + 1) f fs).attempts with
          | zero => omega
          | succ k => simp [hn, List.replicate]
        · have hfl := hih.2.2.2 hfail
          exact ⟨hfl.1, by rw [hfl.2]⟩
      · rename_i hge
        have hf : f = 0 := by
          unfold max_retries at hinv hge
          omega
        subst hf
        exact ⟨fun _ => Nat.le_refl 1, Nat.le_refl 1, by simp, fun _ => ⟨rfl, rfl⟩⟩
    | bodyFail written =>
      dsimp only
      split
      · rename_i hlt
        have hf : 1 ≤ f := by
          unfold max_retries at hinv hlt
          omega
        have hih := ih (attempt + 1) (writeFile fs path written.sum) (by omega)
        have hle := hih.2.1
        have h1 := hih.1 hf
        dsimp only
        refine ⟨fun _ => by omega, by omega, ?_, fun hfail => ?_⟩
        · rw [hih.2.2.1]
          cases hn : (retryFrom netU path (attempt + 1) f (writeFile fs path written.sum)).attempts with
          | zero => omega
          | succ k => simp [hn, List.replicate]
        · have hfl := hih.2.2.2 hfail
          exact ⟨hfl.1, by rw [hfl.2]⟩
      · rename_i hge
        have hf : f = 0 := by
          unfold max_retries at hinv hge
          omega
        subst hf
        exact ⟨fun _ => Nat.le_refl 1, Nat.le_refl 1, by simp, fun _ => ⟨rfl, rfl⟩⟩

/-- The worker writes only to its own destination path. -/
theorem downloadVideo_fs_other (env : Env) (net : String → Nat → AttemptResult)
    (fs : String → Option Nat) (v : Video) (q : String)
    (hq : pathOf env v ≠ some q) :
    (downloadVideo env net fs v).fs q = fs q := by
  unfold downloadVideo
  cases hp : pathOf env v with
  | none => rfl
  | some p =>
    dsimp only
    split
    · rfl
    · exact retryFrom_fs_other (net v.url) p q (fun h => hq (h ▸ hp)) max_retries 0 fs

/-- A worker whose destination file is absent and whose every attempt
fails returns `None` after exactly `max_retries` attempts with the fixed
backoff sleeps. -/
theorem downloadVideo_fails (env : Env) (net : String → Nat → AttemptResult)
    (fs : String → Option Nat) (v : Video) (p : String)
    (hp : pathOf env v = some p) (hfs : fs p = none)
    (hnet : ∀ i, (net v.url i).isOk = false) :
    (downloadVideo env net fs v).result = none ∧
    (downloadVideo env net fs v).attempts = max_retries := by
  have hspec := retryFrom_spec (net v.url) p max_retries 0 fs rfl
  have h := hspec.2.2.2 hnet
  simp only [downloadVideo, hp, hfs]
  simpa using h

/-- One drain step leaves `processed_urls` unchanged or appends exactly
the drained task's URL. -/
theorem cliDrainStep_processed (env : Env) (net : String → Nat → AttemptResult)
    (b : CBatch) (v : Video) :
    (cliDrainStep env net b v).processed = b.processed ∨
    (cliDrainStep env net b v).processed = b.processed ++ [v.url] := by
  unfold cliDrainStep
  dsimp only
  repeat' split
  all_goals simp

/-- One drain step leaves the failed list unchanged or appends exactly the
drained task's URL. -/
theorem cliDrainStep_failed (env : Env) (net : String → Nat → AttemptResult)
    (b : CBatch) (v : Video) :
    (cliDrainStep env net b v).failed = b.failed ∨
    (cliDrainStep env net b v).failed = b.failed ++ [v.url] := by
  unfold cliDrainStep
  dsimp only
  repeat' split
  all_goals simp

/-- One drain step's filesystem is exactly the worker's. -/
theorem cliDrainStep_fs (env : Env) (net : String → Nat → AttemptResult)
    (b : CBatch) (v : Video) :
    (cliDrainStep env net b v).fs = (downloadVideo env net b.fs v).fs := by
  unfold cliDrainStep
  dsimp only
  repeat' split
  all_goals rfl

/-- A drained URL is recorded in `processed_urls`. -/
theorem cliDrainStep_processed_self (env : Env) (net : String → Nat → AttemptResult)
    (b : CBatch) (v : Video) :
    v.url ∈ (cliDrainStep env net b v).processed := by
  unfold cliDrainStep
  dsimp only
  split
  · assumption
  · repeat' split
    all_goals simp

/-- A first-time drained completion of a task whose destination file is
absent and whose every attempt fails appends the task's URL to the
failed list. -/
theorem cliDrainStep_hit (env : Env) (net : String → Nat → AttemptResult)
    (b : CBatch) (v : Video) (p : String)
    (hnm : v.url ∉ b.processed) (hp : pathOf env v = some p) (hfs : b.fs p = none)
    (hnet : ∀ i, (net v.url i).isOk = false) :
    (cliDrainStep env net b v).failed = b.failed ++ [v.url] := by
  have hres := (downloadVideo_fails env net b.fs v p hp hfs hnet).1
  unfold cliDrainStep
  dsimp only
  rw [if_neg hnm, hres]

/-- `processed_urls` only grows during a drain. -/
theorem cliDrain_processed_mono (env : Env) (net : String → Nat → AttemptResult) :
    ∀ (L : List Video) (b : CBatch) (u : String),
      u ∈ b.processed → u ∈ (cliDrain env net b L).processed := by
  intro L
  induction L with
  | nil => intro b u h; exact h
  | cons v rest ih =>
    intro b u h
    simp only [cliDrain]
    refine ih (cliDrainStep env net b v) u ?_
    rcases cliDrainStep_processed env net b v with he | he
    · rw [he]; exact h
    · rw [he]; exact List.mem_append_left _ h

/-- Every drained task's URL ends up in `processed_urls`. -/
theorem cliDrain_mem_processed (env : Env) (net : String → Nat → AttemptResult) :
    ∀ (L : List Video) (b : CBatch) (w : Video),
      w ∈ L → w.url ∈ (cliDrain env net b L).processed := by
  intro L
  induction L with
  | nil => intro b w h; cases h
  | cons v rest ih =>
    intro b w h
    simp only [cliDrain]
    rcases List.mem_cons.mp h with rfl | h2
    · exact cliDrain_processed_mono env net rest _ w.url
        (cliDrainStep_processed_self env net b w)
    · exact ih _ w h2

/-- Draining completions none of whose URLs is `u` neither changes `u`'s
count in the failed list nor `u`'s membership in `processed_urls`. -/
theorem cliDrain_count_preserve (env : Env) (net : String → Nat → AttemptResult) :
    ∀ (L : List Video) (b : CBatch) (u : String),
      (∀ w ∈ L, w.url ≠ u) →
      ((cliDrain env net b L).failed.count u = b.failed.count u ∧
       ((u ∈ (cliDrain env net b L).processed) ↔ u ∈ b.processed)) := by
  intro L
  induction L with
  | nil => intro b u _; exact ⟨rfl, Iff.rfl⟩
  | cons v rest ih =>
    intro b u h
    have hv : v.url ≠ u := h v (List.mem_cons_self v rest)
    have hrest : ∀ w ∈ rest, w.url ≠ u := fun w hw => h w (List.mem_cons_of_mem v hw)
    simp only [cliDrain]
    have hih := ih (cliDrainStep env net b v) u hrest
    constructor
    · rw [hih.1]
      rcases cliDrainStep_failed env net b v with he | he
      · rw [he]
      · rw [he, List.count_append, List.count_singleton]
        simp [hv]
    · rw [hih.2]
      rcases cliDrainStep_processed env net b v with he | he
      · rw [he]
      · rw [he]
        simp [List.mem_append, hv.symm]

/-- Draining completions none of whose destination paths is `p` leaves the
file at `p` unchanged. -/
theorem cliDrain_fs_at (env : Env) (net : String → Nat → AttemptResult) :
    ∀ (L : List Video) (b : CBatch) (p : String),
      (∀ w ∈ L, pathOf env w ≠ some p) →
      (cliDrain env net b L).fs p = b.fs p := by
  intro L
  induction L with
  | nil => intro b p _; rfl
  | cons v rest ih =>
    intro b p h
    simp only [cliDrain]
    rw [ih _ p (fun w hw => h w (List.mem_cons_of_mem v hw))]
    rw [cliDrainStep_fs]
    exact downloadVideo_fs_other env net b.fs v p (h v (List.mem_cons_self v rest))

/-- Draining a completion list in which `v`'s URL occurs exactly once,
with `v`'s destination file absent, `v`'s URL not yet processed, and
every attempt for `v` failing, appends `v`'s URL to the failed list
exactly once. -/
theorem cliDrain_hit (env : Env) (net : String → Nat → AttemptResult)
    (v : Video) (p : String)
    (hp : pathOf env v = some p) (hnet : ∀ i, (net v.url i).isOk = false) :
    ∀ (L : List Video) (b : CBatch),
      (L.map Video.url).count v.url = 1 →
      (∀ w ∈ L, w.url = v.url → w = v) →
      (∀ w ∈ L, w.url ≠ v.url → pathOf env w ≠ some p) →
      v.url ∉ b.processed → b.fs p = none →
      (cliDrain env net b L).failed.count v.url = b.failed.count v.url + 1 := by
  intro L
  induction L with
  | nil => intro b hcount; simp at hcount
  | cons w rest ih =>
    intro b hcount helem1 helem2 hnm hfs
    have hrest1 : ∀ x ∈ rest, x.url = v.url → x = v :=
      fun x hx => helem1 x (List.mem_cons_of_mem w hx)
    have hrest2 : ∀ x ∈ rest, x.url ≠ v.url → pathOf env x ≠ some p :=
      fun x hx => helem2 x (List.mem_cons_of_mem w hx)
    simp only [List.map_cons, List.count_cons] at hcount
    by_cases hw : w.url = v.url
    · have hwv : w = v := helem1 w (List.mem_cons_self w rest) hw
      subst hwv
      have hr0 : (rest.map Video.url).count w.url = 0 := by
        simp [hw] at hcount
        omega
      have hrest0 : ∀ x ∈ rest, x.url ≠ w.url := by
        intro x hx hx2
        have : w.url ∈ rest.map Video.url := hx2 ▸ List.mem_map_of_mem Video.url hx
        exact absurd this (List.count_eq_zero.mp hr0)
      simp only [cliDrain]
      have hpres := (cliDrain_count_preserve env net rest
        (cliDrainStep env net b w) w.url hrest0).1
      rw [hpres, cliDrainStep_hit env net b w p hnm hp hfs hnet, List.count_append]
      simp
    · have hcr : (rest.map Video.url).count v.url = 1 := by
        simp [hw] at hcount
        exact hcount
      simp only [cliDrain]
      have hstep_nm : v.url ∉ (cliDrainStep env net b w).processed := by
        rcases cliDrainStep_processed env net b w with he | he
        · rw [he]; exact hnm
        · rw [he, List.mem_append]
          rintro (h1 | h1)
          · exact hnm h1
          · rw [List.mem_singleton] at h1
            exact hw h1.symm
      have hstep_fs : (cliDrainStep env net b w).fs p = none := by
        rw [cliDrainStep_fs]
        rw [downloadVideo_fs_other env net b.fs w p
          (helem2 w (List.mem_cons_self w rest) hw)]
        exact hfs
      have hstep_failed : (cliDrainStep env net b w).failed.count v.url
          = b.failed.count v.url := by
        rcases cliDrainStep_failed env net b w with he | he
        · rw [he]
        · rw [he, List.count_append, List.count_singleton]
          simp [hw]
      rw [ih (cliDrainStep env net b w) hcr hrest1 hrest2 hstep_nm hstep_fs, hstep_failed]

/-- `processed_urls` only grows across batches. -/
theorem cliBatches_processed_mono (env : Env) (net : String → Nat → AttemptResult)
    (sched : Nat → List Video → List Video) (confirm : Nat → Bool) :
    ∀ (bl : List (List Video)) (bIdx : Nat) (st : CState) (u : String),
      u ∈ st.processed →
      u ∈ (cliBatches env net sched confirm bIdx bl st).processed := by
  intro bl
  induction bl with
  | nil => intro bIdx st u h; exact h
  | cons c rest ih =>
    intro bIdx st u h
    unfold cliBatches
    split
    · exact h
    · exact ih (bIdx + 1) _ u (cliDrain_processed_mono env net (sched bIdx c) _ u h)

/-- With all confirmations affirmative, every task of every batch has its
URL recorded in `processed_urls` at the end of the run. -/
theorem cliBatches_mem_processed (env : Env) (net : String → Nat → AttemptResult)
    (sched : Nat → List Video → List Video) (confirm : Nat → Bool)
    (hconf : ∀ k, confirm k = true)
    (hsched : ∀ (k : Nat) (l : List Video), (sched k l).Perm l) :
    ∀ (bl : List (List Video)) (bIdx : Nat) (st : CState),
      ∀ c ∈ bl, ∀ w ∈ c,
        w.url ∈ (cliBatches env net sched confirm bIdx bl st).processed := by
  intro bl
  induction bl with
  | nil => intro bIdx st c hc; cases hc
  | cons c0 rest ih =>
    intro bIdx st c hc w hw
    unfold cliBatches
    rw [if_neg (by simp [hconf bIdx])]
    rcases List.mem_cons.mp hc with rfl | hc2
    · have hwsched : w ∈ sched bIdx c := (hsched bIdx c).mem_iff.mpr hw
      exact cliBatches_processed_mono env net sched confirm rest (bIdx + 1) _ w.url
        (cliDrain_mem_processed env net (sched bIdx c) _ w hwsched)
    · exact ih (bIdx + 1) _ c hc2 w hw

/-- Batches containing no occurrence of URL `u` do not change `u`'s count
in the run failure totals. -/
theorem cliBatches_count_preserve (env : Env) (net : String → Nat → AttemptResult)
    (sched : Nat → List Video → List Video) (confirm : Nat → Bool)
    (hsched : ∀ (k : Nat) (l : List Video), (sched k l).Perm l) :
    ∀ (bl : List (List Video)) (bIdx : Nat) (st : CState) (u : String),
      (∀ c ∈ bl, ∀ w ∈ c, w.url ≠ u) →
      (cliBatches env net sched confirm bIdx bl st).allFailed.count u
        = st.allFailed.count u := by
  intro bl
  induction bl with
  | nil => intro bIdx st u _; rfl
  | cons c rest ih =>
    intro bIdx st u h
    unfold cliBatches
    split
    · rfl
    · have hdr : ∀ w ∈ sched bIdx c, w.url ≠ u :=
        fun w hw => h c (List.mem_cons_self c rest) w ((hsched bIdx c).mem_iff.mp hw)
      have hcount := (cliDrain_count_preserve env net (sched bIdx c)
        ⟨st.fs, st.processed, [], [], 0⟩ u hdr).1
      rw [ih (bIdx + 1) _ u (fun c2 hc2 => h c2 (List.mem_cons_of_mem c hc2))]
      dsimp only
      rw [List.count_append, hcount]
      rfl

/-- With all confirmations affirmative, a run over batches in which `v`'s
URL occurs exactly once — `v`'s destination file absent at run start, no
other task sharing `v`'s destination path, every attempt for `v` failing
— adds `v`'s URL to the run failure totals exactly once. -/
theorem cliBatches_hit (env : Env) (net : String → Nat → AttemptResult)
    (sched : Nat → List Video → List Video) (confirm : Nat → Bool)
    (hconf : ∀ k, confirm k = true)
    (hsched : ∀ (k : Nat) (l : List Video), (sched k l).Perm l)
    (v : Video) (p : String)
    (hp : pathOf env v = some p) (hnet : ∀ i, (net v.url i).isOk = false) :
    ∀ (bl : List (List Video)) (bIdx : Nat) (st : CState),
      (∀ c ∈ bl, ∀ w ∈ c, w.url = v.url → w = v) →
      (∀ c ∈ bl, ∀ w ∈ c, w.url ≠ v.url → pathOf env w ≠ some p) →
      ((bl.flatten).map Video.url).count v.url = 1 →
      v.url ∉ st.processed → st.fs p = none →
      (cliBatches env net sched confirm bIdx bl st).allFailed.count v.url
        = st.allFailed.count v.url + 1 := by
  intro bl
  induction bl with
  | nil => intro bIdx st _ _ hcount; simp at hcount
  | cons c rest ih =>
    intro bIdx st helem1 helem2 hcount hnm hfs
    have hsplit : (c.map Video.url).count v.url
        + ((rest.flatten).map Video.url).count v.url = 1 := by
      simp only [List.flatten_cons, List.map_append, List.count_append] at hcount
      exact hcount
    unfold cliBatches
    rw [if_neg (by simp [hconf bIdx])]
    have hperm := (hsched bIdx c).map Video.url
    by_cases hc1 : (c.map Video.url).count v.url = 1
    · have hrest0 : ((rest.flatten).map Video.url).count v.url = 0 := by omega
      have hdcount : ((sched bIdx c).map Video.url).count v.url = 1 := by
        rw [hperm.count_eq]
        exact hc1
      have hd := cliDrain_hit env net v p hp hnet (sched bIdx c)
        ⟨st.fs, st.processed, [], [], 0⟩ hdcount
        (fun w hw => helem1 c (List.mem_cons_self c rest) w ((hsched bIdx c).mem_iff.mp hw))
        (fun w hw => helem2 c (List.mem_cons_self c rest) w ((hsched bIdx c).mem_iff.mp hw))
        hnm hfs
      have hrestne : ∀ c2 ∈ rest, ∀ w ∈ c2, w.url ≠ v.url := by
        intro c2 hc2 w hw hne
        have hmem : v.url ∈ (rest.flatten).map Video.url := by
          rw [List.mem_map]
          exact ⟨w, List.mem_flatten.mpr ⟨c2, hc2, hw⟩, hne⟩
        exact absurd hmem (List.count_eq_zero.mp hrest0)
      rw [cliBatches_count_preserve env net sched confirm hsched rest (bIdx + 1) _
        v.url hrestne]
      dsimp only
      rw [List.count_append, hd]
      rfl
    · have hc0 : (c.map Video.url).count v.url = 0 := by omega
      have hrest1 : ((rest.flatten).map Video.url).count v.url = 1 := by omega
      have hdrne : ∀ w ∈ sched bIdx c, w.url ≠ v.url := by
        intro w hw hne
        have : v.url ∈ c.map Video.url := by
          rw [List.mem_map]
          exact ⟨w, (hsched bIdx c).mem_iff.mp hw, hne⟩
        exact absurd this (List.count_eq_zero.mp hc0)
      have hpres := cliDrain_count_preserve env net (sched bIdx c)
        ⟨st.fs, st.processed, [], [], 0⟩ v.url hdrne
      have hfsd : (cliDrain env net ⟨st.fs, st.processed, [], [], 0⟩ (sched bIdx c)).fs p
          = none := by
        rw [cliDrain_fs_at env net (sched bIdx c) _ p
          (fun w hw => helem2 c (List.mem_cons_self c rest) w
            ((hsched bIdx c).mem_iff.mp hw)
            (hdrne w hw))]
        exact hfs
      rw [ih (bIdx + 1) _ (fun c2 hc2 => helem1 c2 (List.mem_cons_of_mem c hc2))
        (fun c2 hc2 => helem2 c2 (List.mem_cons_of_mem c hc2)) hrest1
        (by dsimp only; rw [hpres.2]; exact hnm)
        (by dsimp only; exact hfsd)]
      dsimp only
      rw [List.count_append, hpres.1]
      rfl

/-- Claim C4: for a task whose destination file is absent the worker makes
at most 3 network attempts with a fixed 2-unit sleep between consecutive
attempts (one fewer sleep than attempts, never exponential) and yields
failure (`None`) after the last failed attempt; and in a full run (all
confirmations affirmative, extractor-deduplicated URLs, any completion
orders) a task whose fetch never succeeds within the 3 attempts has its
URL in the run failure list exactly once while every other task is still
processed — no batch or run abort. -/
theorem C4_retry_bound_and_failure_once :
    (∀ (env : Env) (net : String → Nat → AttemptResult) (fs : String → Option Nat)
       (v : Video) (p : String), pathOf env v = some p → fs p = none →
       ((downloadVideo env net fs v).attempts ≤ 3 ∧
        (downloadVideo env net fs v).sleeps
          = List.replicate ((downloadVideo env net fs v).attempts - 1) 2 ∧
        ((∀ i, (net v.url i).isOk = false) →
          (downloadVideo env net fs v).result = none ∧
          (downloadVideo env net fs v).attempts = 3))) ∧
    (∀ (env : Env) (net : String → Nat → AttemptResult)
       (sched : Nat → List Video → List Video) (confirm : Nat → Bool)
       (videos : List Video) (batch_size : Nat) (fs0 : String → Option Nat)
       (v : Video) (p : String),
       1 ≤ batch_size →
       (videos.map Video.url).Nodup →
       (∀ (k : Nat) (l : List Video), (sched k l).Perm l) →
       (∀ k, confirm k = true) →
       v ∈ videos →
       pathOf env v = some p →
       fs0 p = none →
       (∀ w ∈ videos, w.url ≠ v.url → pathOf env w ≠ some p) →
       (∀ i, (net v.url i).isOk = false) →
       ((parallel_download_videos env net sched confirm videos batch_size fs0).allFailed.count
           v.url = 1 ∧
        (∀ w ∈ videos, w.url ∈
          (parallel_download_videos env net sched confirm videos batch_size fs0).processed))) := by
  constructor
  · intro env net fs v p hp hfs
    have hspec := retryFrom_spec (net v.url) p max_retries 0 fs rfl
    have heq : downloadVideo env net fs v = retryFrom (net v.url) p 0 max_retries fs := by
      simp [downloadVideo, hp, hfs]
    rw [heq]
    exact ⟨hspec.2.1, hspec.2.2.1, fun hfail => (hspec.2.2.2 hfail)⟩
  · intro env net sched confirm videos batch_size fs0 v p hbs hnodup hsched hconf hv hp
      hfs0 hpaths hnet
    have hflat : (chunks batch_size videos).flatten = videos :=
      chunks_join batch_size videos hbs
    have helem1 : ∀ c ∈ chunks batch_size videos, ∀ w ∈ c, w.url = v.url → w = v := by
      intro c hc w hw hne
      exact List.inj_on_of_nodup_map hnodup
        (chunks_sub batch_size videos c hc w hw) hv hne
    have helem2 : ∀ c ∈ chunks batch_size videos, ∀ w ∈ c,
        w.url ≠ v.url → pathOf env w ≠ some p :=
      fun c hc w hw => hpaths w (chunks_sub batch_size videos c hc w hw)
    have hcount : (((chunks batch_size videos).flatten).map Video.url).count v.url = 1 := by
      rw [hflat]
      exact List.count_eq_one_of_mem hnodup (List.mem_map_of_mem Video.url hv)
    constructor
    · have := cliBatches_hit env net sched confirm hconf hsched v p hp hnet
        (chunks batch_size videos) 0 ⟨fs0, [], [], [], 0, []⟩
        helem1 helem2 hcount (by simp) (by dsimp only; exact hfs0)
      unfold parallel_download_videos
      rw [this]
      rfl
    · intro w hw
      have hw2 : w ∈ (chunks batch_size videos).flatten := by
        rw [hflat]
        exact hw
      rcases List.mem_flatten.mp hw2 with ⟨c, hc, hwc⟩
      exact cliBatches_mem_processed env net sched confirm hconf hsched
        (chunks batch_size videos) 0 ⟨fs0, [], [], [], 0, []⟩ c hc w hwc

/-- Claim C4 witness: both parts at concrete inputs — a single always-
failing task makes 3 attempts with sleeps `[2, 2]`, returns failure, and
a one-task run records its URL in the failure totals exactly once while
processing it. -/
theorem C4_retry_bound_and_failure_once_witness :
    ((downloadVideo sampleEnv netAllConnFail fsEmpty sampleVideo).attempts ≤ 3 ∧
     (downloadVideo sampleEnv netAllConnFail fsEmpty sampleVideo).sleeps
       = List.replicate
           ((downloadVideo sampleEnv netAllConnFail fsEmpty sampleVideo).attempts - 1) 2 ∧
     ((∀ i, (netAllConnFail sampleVideo.url i).isOk = false) →
       (downloadVideo sampleEnv netAllConnFail fsEmpty sampleVideo).result = none ∧
       (downloadVideo sampleEnv netAllConnFail fsEmpty sampleVideo).attempts = 3)) ∧
    ((parallel_download_videos sampleEnv netAllConnFail schedId (fun _ => true)
        [sampleVideo] 1 fsEmpty).allFailed.count sampleVideo.url = 1 ∧
     (∀ w ∈ [sampleVideo], w.url ∈
       (parallel_download_videos sampleEnv netAllConnFail schedId (fun _ => true)
         [sampleVideo] 1 fsEmpty).processed)) := by
  constructor
  · exact C4_retry_bound_and_failure_once.1 sampleEnv netAllConnFail fsEmpty sampleVideo
      samplePath (by decide) rfl
  · refine C4_retry_bound_and_failure_once.2 sampleEnv netAllConnFail schedId
      (fun _ => true) [sampleVideo] 1 fsEmpty sampleVideo samplePath
      (by decide) (by decide) (fun k l => List.Perm.refl l) (fun _ => rfl)
      (by decide) (by decide) rfl ?_ (fun i => rfl)
    intro w hw hne
    have hw2 : w = sampleVideo := by
      cases hw with
      | head => rfl
      | tail _ h => cases h
    subst hw2
    exact absurd rfl hne

/-- Claim C1 witness: the dedup invariant at a concrete input containing a
duplicated URL across two raw entries. -/
theorem C1_extracted_urls_nodup_witness :
    ((get_video_links ⟨some [⟨some "u1", "2023"⟩, ⟨some "u1", "2024"⟩]⟩).map
      Video.url).Nodup :=
  C1_extracted_urls_nodup ⟨some [⟨some "u1", "2023"⟩, ⟨some "u1", "2024"⟩]⟩

/-- Claim C10 witness: the all-personal/all-posted facts at a concrete
input. -/
theorem C10_extractor_all_personal_witness :
    (∀ v ∈ get_video_links ⟨some [⟨some "u1", "2023"⟩]⟩,
      v.is_personal = true ∧ v.type = "posted") ∧
    otherCount (get_video_links ⟨some [⟨some "u1", "2023"⟩]⟩) = 0 ∧
    (∀ v ∈ get_video_links ⟨some [⟨some "u1", "2023"⟩]⟩, prefixFor v = "personal") :=
  C10_extractor_all_personal ⟨some [⟨some "u1", "2023"⟩]⟩
